import Mathlib

/-!
Verification development for the Astro plugin (renson-plugins repository).

The development shallowly embeds the two source modules that carry the
program logic:

* `src/astro/configuration.py` — the configuration migration and
  validation pipeline (`ConfigurationFactory` and its helpers, plus
  `Coordinates.from_string`);
* `src/astro/main.py` — the scheduler: `_build_execution_plan`
  (solar-event fetch with retries and plan construction) and the
  wait/dispatch scan of the `run` loop.

Machine conventions used throughout:

* Python exceptions are modelled with `Except String` / `Option`;
* Python `dict` documents with a fixed schema become structures whose
  fields are `Option`-valued when the key may be absent;
* timestamps are integers (seconds); minute offsets are converted with
  an explicit `60 *` factor where the code uses `timedelta(minutes=...)`;
* the execution plan (a Python `dict` keyed by datetime, insertion
  ordered) is an association list `List (Int × List PlanEntry)` where a
  new key is appended at the end and an existing key has the new entry
  appended to its value list, mirroring `setdefault(...).append(...)`;
* `\d` in the coordinate regular expression is modelled as the ASCII
  digits and `.` as "any character except newline", Python's default
  for patterns applied to coordinate text.
-/

namespace Astro

/-! ## Generic list helpers -/

/-- Concatenation of the images of a function over a list. -/
def concatMap (f : α → List β) : List α → List β
  | [] => []
  | a :: as => f a ++ concatMap f as

/-- All ways to split a list into a prefix and a suffix, shortest prefix
first. -/
def splits : List Char → List (List Char × List Char)
  | [] => [([], [])]
  | a :: as => ([], a :: as) :: (splits as).map (fun pr => (a :: pr.1, pr.2))

/-! ## Coordinate parsing (`Coordinates.from_string`)

The source matches `^(-?\d+[\.,]\d+).*?[;,/].*?(-?\d+[\.,]\d+)$` against
the coordinate text, normalizes `,` to `.` in each captured group and
converts the groups with `float`.  The match semantics are embedded
directly: `numFull` is a full match of `-?\d+[\.,]\d+`, the two `.*?`
gaps may hold any characters except newline, and `$` also matches just
before a single trailing newline. -/

/-- Full match of the number sub-pattern `-?\d+[\.,]\d+`. -/
def numFull (l : List Char) : Bool :=
  let l1 := match l with
    | '-' :: r => r
    | _ => l
  match l1.span Char.isDigit with
  | (d1, p :: d2) =>
    !d1.isEmpty && (p == '.' || p == ',') && !d2.isEmpty && d2.all Char.isDigit
  | (_, []) => false

/-- The separator character class `[;,/]`. -/
def sepChar (c : Char) : Bool := c == ';' || c == ',' || c == '/'

/-- A `.*?` gap: any characters except newline. -/
def noNL (l : List Char) : Bool := l.all (fun c => !(c == '\n'))

/-- Match of the trailing `(-?\d+[\.,]\d+)$`: the remaining text is a
number, optionally followed by one final newline (Python `$`). -/
def tailNum (t : List Char) : Bool :=
  numFull t || (t.getLast? == some '\n' && numFull t.dropLast)

/-- Match of `.*?(-?\d+[\.,]\d+)$` against the text after the separator. -/
def tail2Match (r3 : List Char) : Bool :=
  (splits r3).any (fun pr => noNL pr.1 && tailNum pr.2)

/-- Match of `[;,/].*?(-?\d+[\.,]\d+)$`. -/
def sepRest : List Char → Bool
  | [] => false
  | c :: r3 => sepChar c && tail2Match r3

/-- Match of `.*?[;,/].*?(-?\d+[\.,]\d+)$` against the text after the
first captured number. -/
def restMatch (r1 : List Char) : Bool :=
  (splits r1).any (fun pr => noNL pr.1 && sepRest pr.2)

/-- Success of the whole anchored regular expression
`^(-?\d+[\.,]\d+).*?[;,/].*?(-?\d+[\.,]\d+)$`; with full backtracking
the match succeeds exactly when some decomposition exists. -/
def coordPatternMatch (l : List Char) : Bool :=
  (splits l).any (fun pr => numFull pr.1 && restMatch pr.2)

/-- Captured groups of the regular expression, following the engine's
priorities: the first group takes the longest second digit run whose
continuation still matches (the sign, first digit run and decimal point
are forced), and each `.*?` gap is as short as possible. -/
def extractGroups (l : List Char) : Option (List Char × List Char) :=
  match (splits l).reverse.find? (fun pr => numFull pr.1 && restMatch pr.2) with
  | none => none
  | some (n1, r1) =>
    match (splits r1).find? (fun pr => noNL pr.1 && sepRest pr.2) with
    | none => none
    | some (_, r2) =>
      match r2 with
      | [] => none
      | _ :: r3 =>
        match (splits r3).find? (fun pr => noNL pr.1 && tailNum pr.2) with
        | none => none
        | some (_, t) =>
          some (n1, if t.getLast? == some '\n' then t.dropLast else t)

/-- Numeric value of a digit run. -/
def digitsToNat (l : List Char) : Nat :=
  l.foldl (fun a c => 10 * a + (c.toNat - 48)) 0

/-- Value of an unsigned decimal `\d+[\.]\d+` (exact, as a rational;
`float` conversion is modelled exactly on these finite decimals). -/
def parseUnsignedDecimal (l : List Char) : Rat :=
  match l.span Char.isDigit with
  | (d1, _ :: d2) =>
    (digitsToNat d1 : Rat) + (digitsToNat d2 : Rat) / ((10 : Rat) ^ d2.length)
  | (d1, []) => (digitsToNat d1 : Rat)

/-- Value of a signed decimal. -/
def parseDecimalR : List Char → Rat
  | '-' :: r => -(parseUnsignedDecimal r)
  | l => parseUnsignedDecimal l

/-- The `latitude.replace(',', '.')` normalization. -/
def normalizeCommas (l : List Char) : List Char :=
  l.map (fun c => if c == ',' then '.' else c)

/-- Geographic coordinates (`Coordinates` dataclass). -/
structure Coordinates where
  latitude : Rat
  longitude : Rat
deriving DecidableEq

/-- `Coordinates.from_string`: the empty string gives `(0.0, 0.0)`,
otherwise the regular expression must match and the two captured groups
are normalized and converted; `none` models the raised `ValueError`. -/
def coordinatesFromString (s : String) : Option Coordinates :=
  if s = "" then some ⟨0, 0⟩
  else
    match extractGroups s.toList with
    | some (n1, n2) =>
      some ⟨parseDecimalR (normalizeCommas n1), parseDecimalR (normalizeCommas n2)⟩
    | none => none

/-- The pattern as worded by the claim for C8: number, separator,
optional garbage, number — with no garbage allowed between the first
number and the separator. -/
def claimCoordPattern (s : String) : Bool :=
  (splits s.toList).any (fun pr =>
    numFull pr.1 &&
      (match pr.2 with
       | c :: r => sepChar c && (splits r).any (fun qr => numFull qr.2)
       | [] => false))

/-! ## Configuration model (`src/astro/configuration.py`) -/

/-- The nine values of the `SunLocation` enumeration. -/
def sunLocationTokens : List String :=
  ["solar noon", "sunset", "civil dawn", "nautical dawn", "astronomical dawn",
   "astronomical dusk", "nautical dusk", "civil dusk", "sunrise"]

/-- Whether `SunLocation(s)` succeeds. -/
def isValidSunLocation (s : String) : Bool := sunLocationTokens.contains s

/-- Whether `ValidationJobAction(s)` succeeds (`set` or `clear`). -/
def isValidValidationAction (s : String) : Bool := s == "set" || s == "clear"

/-- An id field as it sits in a job: a Python `int` or `str` (the
validator coerces strings). -/
inductive IdVal where
  | intId (n : Int)
  | strId (s : String)
deriving DecidableEq

/-- `GroupActionJob` dataclass; `sun_location` holds the enumeration's
string value. -/
structure GroupActionJob where
  group_action_id : IdVal
  sun_location : String
  offset : Int
deriving DecidableEq

/-- `ValidationJob` dataclass; `action` holds `"set"` or `"clear"`. -/
structure ValidationJob where
  action : String
  bit_id : IdVal
  sun_location : String
  offset : Int
deriving DecidableEq

/-- `ConfigurationVersion` enumeration. -/
inductive ConfigurationVersion where
  | v1
  | v2
  | v3
deriving DecidableEq

/-- The canonical `Configuration` dataclass. -/
structure Configuration where
  coordinates : Coordinates
  group_action_jobs : List GroupActionJob
  validation_jobs : List ValidationJob
  version : ConfigurationVersion
deriving DecidableEq

/-- A scalar JSON value as found in a raw job's `offset` field. -/
inductive RawVal where
  | null
  | str (s : String)
  | int (n : Int)
deriving DecidableEq

/-- An element of a raw `basic_configuration` list. -/
structure RawBasicJob where
  group_action_id : IdVal
  sun_location : String
  offset : RawVal
deriving DecidableEq

/-- An element of a raw `advanced_configuration` list. -/
structure RawAdvancedJob where
  action : String
  bit_id : IdVal
  sun_location : String
  offset : RawVal
deriving DecidableEq

/-- A raw configuration document (`config_data` dict); `none` models an
absent key. -/
structure RawConfig where
  version : Option String := none
  coordinates : Option String := none
  horizon_bit : Option Int := none
  civil_bit : Option Int := none
  nautical_bit : Option Int := none
  astronomical_bit : Option Int := none
  bright_bit : Option Int := none
  bright_offset : Option Int := none
  group_action : Option Int := none
  basic_configuration : Option (List RawBasicJob) := none
  advanced_configuration : Option (List RawAdvancedJob) := none
deriving DecidableEq

/-- Python `int(s)` on a string: optional sign then decimal digits
(`ValueError` otherwise). -/
def pyIntOfString (s : String) : Except String Int :=
  let rest := match s.toList with
    | '-' :: r => r
    | '+' :: r => r
    | l => l
  let sign : Int := match s.toList with
    | '-' :: _ => -1
    | _ => 1
  if rest.isEmpty then .error "invalid literal for int()"
  else if rest.all Char.isDigit then .ok (sign * (digitsToNat rest : Int))
  else .error "invalid literal for int()"

/-- `int(job['offset'] or 0)`: `None`, the empty string and `0` are
falsy and give `0`; any other string must parse as an integer. -/
def pyOrZeroInt (v : RawVal) : Except String Int :=
  match v with
  | .null => .ok 0
  | .int n => .ok n
  | .str s => if s = "" then .ok 0 else pyIntOfString s

/-- `ConfigurationVersion(version_str)`: raises for an unknown value. -/
def parseVersionString (s : String) : Except String ConfigurationVersion :=
  if s = "3.0" then .ok .v3
  else if s = "2.0" then .ok .v2
  else if s = "1.0" then .ok .v1
  else .error "unknown configuration version"

/-- `_determine_configuration_version`: an explicit `version` field wins,
else presence of both job lists means 2.0, else 1.0. -/
def determineConfigurationVersion (raw : RawConfig) : Except String ConfigurationVersion :=
  match raw.version with
  | some s => parseVersionString s
  | none =>
    if raw.basic_configuration.isSome && raw.advanced_configuration.isSome then .ok .v2
    else .ok .v1

/-- The five bit roles of a 1.0 document, in source order: bit id, start
event, stop event, and whether `bright_offset` applies. -/
def v1Roles (raw : RawConfig) : List (Int × String × String × Bool) :=
  [(raw.horizon_bit.getD (-1), "sunrise", "sunset", false),
   (raw.civil_bit.getD (-1), "civil dawn", "civil dusk", false),
   (raw.nautical_bit.getD (-1), "nautical dawn", "nautical dusk", false),
   (raw.astronomical_bit.getD (-1), "astronomical dawn", "astronomical dusk", false),
   (raw.bright_bit.getD (-1), "sunrise", "sunset", true)]

/-- `_migrate_configuration_v1`: the per-role loop, appending to the two
job accumulator lists exactly as the source does. -/
def v1JobsFold (groupActionId brightOffset : Int)
    (roles : List (Int × String × String × Bool)) :
    List GroupActionJob × List ValidationJob :=
  roles.foldl
    (fun acc r =>
      let (bit, start, stop, accountOffset) := r
      if 0 ≤ bit then
        (acc.1 ++
           [⟨.intId groupActionId, start, if accountOffset then brightOffset else 0⟩,
            ⟨.intId groupActionId, stop, if accountOffset then -brightOffset else 0⟩],
         acc.2 ++
           [⟨"set", .intId bit, start, if accountOffset then brightOffset else 0⟩,
            ⟨"clear", .intId bit, stop, if accountOffset then -brightOffset else 0⟩])
      else acc)
    ([], [])

/-- `_migrate_configuration_v1`. -/
def migrateConfigurationV1 (raw : RawConfig) : Except String Configuration :=
  match determineConfigurationVersion raw with
  | .error e => .error e
  | .ok v =>
    if v ≠ .v1 then .error "Configuration version is not V1.0, cannot migrate."
    else
      match raw.coordinates with
      | none => .error "Coordinates must be provided in the configuration."
      | some cs =>
        if cs = "" then .error "Coordinates must be provided in the configuration."
        else
          match coordinatesFromString cs with
          | none => .error "Invalid coordinates format"
          | some coords =>
            let jobs := v1JobsFold (raw.group_action.getD (-1)) (raw.bright_offset.getD 0)
              (v1Roles raw)
            .ok ⟨coords, jobs.1, jobs.2, .v3⟩

/-- Conversion of one `basic_configuration` element to a `GroupActionJob`,
with the checks the constructor arguments perform (`SunLocation(...)`,
`int(offset or 0)`). -/
def rawBasicToJob (j : RawBasicJob) : Except String GroupActionJob :=
  if isValidSunLocation j.sun_location then
    match pyOrZeroInt j.offset with
    | .ok off => .ok ⟨j.group_action_id, j.sun_location, off⟩
    | .error e => .error e
  else .error "unknown sun location"

/-- Conversion of one `advanced_configuration` element to a
`ValidationJob`. -/
def rawAdvancedToJob (j : RawAdvancedJob) : Except String ValidationJob :=
  if isValidValidationAction j.action then
    if isValidSunLocation j.sun_location then
      match pyOrZeroInt j.offset with
      | .ok off => .ok ⟨j.action, j.bit_id, j.sun_location, off⟩
      | .error e => .error e
    else .error "unknown sun location"
  else .error "unknown validation action"

/-- Elementwise conversion of a list, stopping at the first error (a
Python list comprehension whose element expression may raise). -/
def mapExcept (f : α → Except String β) : List α → Except String (List β)
  | [] => .ok []
  | a :: as =>
    match f a with
    | .error e => .error e
    | .ok b =>
      match mapExcept f as with
      | .error e => .error e
      | .ok bs => .ok (b :: bs)

/-- Shared body of `_migrate_configuration_v2` and
`_migrate_configuration_v3` after the version check. -/
def migrateV2V3Body (raw : RawConfig) : Except String Configuration :=
  match raw.coordinates with
  | none => .error "Coordinates must be provided in the configuration."
  | some cs =>
    if cs = "" then .error "Coordinates must be provided in the configuration."
    else
      match coordinatesFromString cs with
      | none => .error "Invalid coordinates format"
      | some coords =>
        match mapExcept rawBasicToJob (raw.basic_configuration.getD []) with
        | .error e => .error e
        | .ok gjobs =>
          match mapExcept rawAdvancedToJob (raw.advanced_configuration.getD []) with
          | .error e => .error e
          | .ok vjobs => .ok ⟨coords, gjobs, vjobs, .v3⟩

/-- `_migrate_configuration_v2`. -/
def migrateConfigurationV2 (raw : RawConfig) : Except String Configuration :=
  match determineConfigurationVersion raw with
  | .error e => .error e
  | .ok v =>
    if v ≠ .v2 then .error "Configuration version is not V2.0, cannot migrate."
    else migrateV2V3Body raw

/-- `_migrate_configuration_v3`. -/
def migrateConfigurationV3 (raw : RawConfig) : Except String Configuration :=
  match determineConfigurationVersion raw with
  | .error e => .error e
  | .ok v =>
    if v ≠ .v3 then .error "Configuration version is not V3.0, cannot migrate."
    else migrateV2V3Body raw

/-- Coercion of an id field: a string id goes through `int(...)`, an
integer id is left alone. -/
def coerceId (v : IdVal) : Except String Int :=
  match v with
  | .intId n => .ok n
  | .strId s => pyIntOfString s

/-- Whether an id passes `_verify_configuration`'s checks: coercible and
non-negative. -/
def idOk (v : IdVal) : Bool :=
  match coerceId v with
  | .ok n => decide (0 ≤ n)
  | .error _ => false

/-- The group-action loop of `_verify_configuration`: coerce each string
id, reject negative ids. No check on `sun_location` is performed for
group-action jobs. -/
def verifyGroupJobs : List GroupActionJob → Except String (List GroupActionJob)
  | [] => .ok []
  | j :: js =>
    match coerceId j.group_action_id with
    | .error _ => .error "Invalid group action ID, should be an integer."
    | .ok n =>
      if n < 0 then .error "Invalid group action ID"
      else
        match verifyGroupJobs js with
        | .error e => .error e
        | .ok js' => .ok ({ j with group_action_id := .intId n } :: js')

/-- The validation-job loop of `_verify_configuration`: coerce each
string id, reject negative ids, reject unknown `sun_location` values. -/
def verifyValidationJobs : List ValidationJob → Except String (List ValidationJob)
  | [] => .ok []
  | j :: js =>
    match coerceId j.bit_id with
    | .error _ => .error "Invalid bit ID, should be an integer."
    | .ok n =>
      if n < 0 then .error "Invalid bit ID"
      else if !isValidSunLocation j.sun_location then .error "Invalid sun location"
      else
        match verifyValidationJobs js with
        | .error e => .error e
        | .ok js' => .ok ({ j with bit_id := .intId n } :: js')

/-- `_verify_configuration`; the in-place id coercion is modelled by
returning the coerced configuration.  The source's initial
`if not config.coordinates` test is dead code: a dataclass instance is
always truthy in Python. -/
def verifyConfiguration (c : Configuration) : Except String Configuration :=
  match verifyGroupJobs c.group_action_jobs with
  | .error e => .error e
  | .ok g =>
    match verifyValidationJobs c.validation_jobs with
    | .error e => .error e
    | .ok v => .ok { c with group_action_jobs := g, validation_jobs := v }

/-- `parse_configuration` without the factory state: detect, migrate by
version, verify. -/
def parseConfiguration (raw : RawConfig) : Except String Configuration :=
  match determineConfigurationVersion raw with
  | .error e => .error e
  | .ok v =>
    match
      (match v with
       | .v1 => migrateConfigurationV1 raw
       | .v2 => migrateConfigurationV2 raw
       | .v3 => migrateConfigurationV3 raw) with
    | .error e => .error e
    | .ok c => verifyConfiguration c

/-- `ConfigurationFactory.parse_configuration` including the
`self.config` update: the stored configuration is replaced only after
migration and verification both succeed, since a raised error skips the
assignment. -/
def factoryParseConfiguration (prev : Option Configuration) (raw : RawConfig) :
    Option Configuration × Except String Configuration :=
  match parseConfiguration raw with
  | .ok c => (some c, .ok c)
  | .error e => (prev, .error e)

/-! ## Scheduler model (`src/astro/main.py`)

Timestamps are integers in seconds; `timedelta(minutes=m)` becomes
`60 * m`, `timedelta(minutes=5)` is `300` and `timedelta(days=2)` is
`172800`. -/

/-- An entry of `self._group_actions[sun_location]` built by
`_read_config`: a coerced automation id and minute offset. -/
structure GAction where
  group_action_id : Int
  offset : Int
deriving DecidableEq

/-- An entry of `self._bits[sun_location]`: a coerced bit id, the action
string and minute offset. -/
structure BAction where
  bit_id : Int
  action : String
  offset : Int
deriving DecidableEq

/-- The `data` dict of a plan entry. -/
inductive PlanData where
  | bit (action : String) (bit_id : Int)
  | group_action (group_action_id : Int)
deriving DecidableEq

/-- A plan entry; the `task` key of the source dict is determined by the
`data` constructor, and the `source` label (which the code renders as
`'{sun_location}{offset text}'`) is kept as its two components. -/
structure PlanEntry where
  source : String × Int
  data : PlanData
deriving DecidableEq

/-- The execution plan: a datetime-keyed, insertion-ordered dict. -/
abbrev ExecutionPlan := List (Int × List PlanEntry)

/-- A solar-event timestamp as returned in the payload, before
`_convert`: either text that fails `strptime`, a parsed date in the
sentinel year 1970, or a real timestamp. -/
inductive RawTs where
  | unparseable
  | epochYear
  | value (t : Int)
deriving DecidableEq

/-- `_convert` applied to `data['results'].get(...)`: absent keys,
unparseable text and the 1970 sentinel all give `None`. -/
def convertTs : Option RawTs → Option Int
  | none => none
  | some .unparseable => none
  | some .epochYear => none
  | some (.value t) => some t

/-- `field_map.get(sun_location, 'x')`. -/
def fieldMapGet (s : String) : String :=
  if s = "solar noon" then "solar_noon"
  else if s = "sunset" then "sunset"
  else if s = "civil dusk" then "civil_twilight_end"
  else if s = "nautical dusk" then "nautical_twilight_end"
  else if s = "astronomical dusk" then "astronomical_twilight_end"
  else if s = "astronomical dawn" then "astronomical_twilight_begin"
  else if s = "nautical dawn" then "nautical_twilight_begin"
  else if s = "civil dawn" then "civil_twilight_begin"
  else if s = "sunrise" then "sunrise"
  else "x"

/-- `execution_plan.setdefault(entry_date, []).append(entry)`: append to
the list of an existing key, else append a new key at the end. -/
def insertPlan : ExecutionPlan → Int → PlanEntry → ExecutionPlan
  | [], t, e => [(t, [e])]
  | (t', es) :: rest, t, e =>
    if t = t' then (t', es ++ [e]) :: rest
    else (t', es) :: insertPlan rest t e

/-- Sequential insertion of a batch of timestamped entries. -/
def addPlanBatch (p : ExecutionPlan) (pairs : List (Int × PlanEntry)) : ExecutionPlan :=
  pairs.foldl (fun q pr => insertPlan q pr.1 pr.2) p

/-- The bit loop of `_build_execution_plan` for one sun location with
event time `et`: fire times are `date + timedelta(minutes=offset)` and
an action whose fire time is before `now` is skipped. -/
def bitPairs (now : Int) (loc : String) (et : Int) (l : List BAction) :
    List (Int × PlanEntry) :=
  l.filterMap (fun a =>
    let d := et + 60 * a.offset
    if d < now then none
    else some (d, ⟨(loc, a.offset), .bit a.action a.bit_id⟩))

/-- The group-action loop of `_build_execution_plan` for one sun
location. -/
def groupPairs (now : Int) (loc : String) (et : Int) (l : List GAction) :
    List (Int × PlanEntry) :=
  l.filterMap (fun a =>
    let d := et + 60 * a.offset
    if d < now then none
    else some (d, ⟨(loc, a.offset), .group_action a.group_action_id⟩))

/-- One iteration of the per-location loop of `_build_execution_plan`:
skip locations without actions, skip locations whose converted event
time is `None`, otherwise insert all bit entries then all group-action
entries. -/
def locationStep (now : Int) (groupActions : String → List GAction)
    (bits : String → List BAction) (results : String → Option RawTs)
    (p : ExecutionPlan) (loc : String) : ExecutionPlan :=
  let g := groupActions loc
  let b := bits loc
  if g.isEmpty && b.isEmpty then p
  else
    match convertTs (results (fieldMapGet loc)) with
    | none => p
    | some et => addPlanBatch (addPlanBatch p (bitPairs now loc et b)) (groupPairs now loc et g)

/-- The plan-construction part of `_build_execution_plan`: one pass over
the sun locations (`order` is the iteration order of the key set, which
Python leaves unspecified), starting from an empty plan. -/
def buildExecutionPlan (now : Int) (order : List String)
    (groupActions : String → List GAction) (bits : String → List BAction)
    (results : String → Option RawTs) : ExecutionPlan :=
  order.foldl (locationStep now groupActions bits results) []

/-- `execution_plan.get(t, [])`: value list of the first matching key. -/
def lookupPlan : ExecutionPlan → Int → List PlanEntry
  | [], _ => []
  | (t', es) :: rest, t => if t = t' then es else lookupPlan rest t

/-- The entries one sun location contributes at one fire time: its
surviving bit entries followed by its surviving group-action entries,
each in index order. -/
def locContribs (now : Int) (groupActions : String → List GAction)
    (bits : String → List BAction) (results : String → Option RawTs)
    (loc : String) (t : Int) : List PlanEntry :=
  let g := groupActions loc
  let b := bits loc
  if g.isEmpty && b.isEmpty then []
  else
    match convertTs (results (fieldMapGet loc)) with
    | none => []
    | some et =>
      ((bitPairs now loc et b).filter (fun pr => decide (pr.1 = t))).map Prod.snd ++
        ((groupPairs now loc et g).filter (fun pr => decide (pr.1 = t))).map Prod.snd

/-- Outcome of one fetch attempt in `_build_execution_plan`: any
non-200 response, non-`OK` status, transport error or malformed payload
is a failure; a success carries the `results` payload. -/
inductive FetchOutcome where
  | failure
  | success (results : String → Option RawTs)

/-- The retry loop of `_build_execution_plan`: `retries = 5`; each
failed attempt resets the plan to empty and sleeps 5 seconds before the
next test of the loop condition.  Returns the final plan, the log of
sleeps performed, and the number of attempts made. -/
def buildRetryLoop (now : Int) (order : List String)
    (groupActions : String → List GAction) (bits : String → List BAction)
    (attempts : Nat → FetchOutcome) :
    Nat → Nat → ExecutionPlan → List Nat → ExecutionPlan × List Nat × Nat
  | 0, i, plan, sleeps => (plan, sleeps, i)
  | retries + 1, i, _, sleeps =>
    match attempts i with
    | .success results =>
      (buildExecutionPlan now order groupActions bits results, sleeps, i + 1)
    | .failure => buildRetryLoop now order groupActions bits attempts retries (i + 1) [] (sleeps ++ [5])

/-- `_build_execution_plan` as called by `run`: 5 attempts, starting
from the previous plan. -/
def buildExecutionPlanWithRetries (now : Int) (order : List String)
    (groupActions : String → List GAction) (bits : String → List BAction)
    (attempts : Nat → FetchOutcome) (plan0 : ExecutionPlan) :
    ExecutionPlan × List Nat × Nat :=
  buildRetryLoop now order groupActions bits attempts 5 0 plan0 []

/-- The wake timestamp `run` computes when the plan is empty:
`time.time() + (tomorrow - now).total_seconds() + 5`, with `time.time()`
identified with `now`'s epoch seconds. -/
def runEmptyPlanWake (nowEpoch tomorrowEpoch : Int) : Int :=
  nowEpoch + (tomorrowEpoch - nowEpoch) + 5

/-- The per-wake scan of `run` over the plan keys, threading the
`(next_action_date, next_action_delta)` pair: entries within 5 minutes
of `now` are dispatched (in plan order) and their key removed; an entry
further away updates the next-wake candidate when it is in the future
and strictly closer than the best so far.  Returns the remaining plan,
the dispatched entries in dispatch order, and the final pair. -/
def dispatchScanLoop (now : Int) :
    ExecutionPlan → Int × Nat → ExecutionPlan × List PlanEntry × (Int × Nat)
  | [], best => ([], [], best)
  | (d, es) :: rest, best =>
    let delta := (d - now).natAbs
    if 300 < delta then
      let best' := if now < d ∧ delta < best.2 then (d, delta) else best
      let r := dispatchScanLoop now rest best'
      ((d, es) :: r.1, r.2.1, r.2.2)
    else
      let r := dispatchScanLoop now rest best
      (r.1, es ++ r.2.1, r.2.2)

/-- One wake of `run`'s dispatch scan, with the source's initialization
`next_action_date = tomorrow`, `next_action_delta = timedelta(days=2)`.
The third component is the chosen `next_action_date`. -/
def dispatchScan (now tomorrow : Int) (plan : ExecutionPlan) :
    ExecutionPlan × List PlanEntry × Int :=
  let r := dispatchScanLoop now plan (tomorrow, 172800)
  (r.1, r.2.1, r.2.2.1)

/-- Minimum of a list of timestamps with a default for the empty list
(the default itself is not compared). -/
def minOr : List Int → Int → Int
  | [], dflt => dflt
  | x :: xs, _ => xs.foldl min x

/-- The candidate-update fold of the scan, on the key list alone. -/
def bestFold (now : Int) : List Int → Int × Nat → Int × Nat
  | [], best => best
  | d :: ds, best =>
    bestFold now ds
      (if now < d ∧ 300 < (d - now).natAbs ∧ (d - now).natAbs < best.2
       then (d, (d - now).natAbs) else best)

/-- Membership of an entry somewhere in a plan. -/
def memEntries (x : PlanEntry) (p : ExecutionPlan) : Prop :=
  ∃ q ∈ p, x ∈ q.2

/-- The update condition of the scan, as a predicate on a key given the
current best delta. -/
def wakeCandidate (now : Int) (delta : Nat) (d : Int) : Bool :=
  decide (now < d ∧ 300 < (d - now).natAbs ∧ (d - now).natAbs < delta)

/-! ## Lemmas about the configuration pipeline -/

/-- The group-action jobs one bit role contributes: none when its bit is
negative, else the start and stop jobs. -/
def roleGroupJobs (groupActionId brightOffset : Int) :
    Int × String × String × Bool → List GroupActionJob
  | (bit, start, stop, accountOffset) =>
    if 0 ≤ bit then
      [⟨.intId groupActionId, start, if accountOffset then brightOffset else 0⟩,
       ⟨.intId groupActionId, stop, if accountOffset then -brightOffset else 0⟩]
    else []

/-- The validation jobs one bit role contributes: none when its bit is
negative, else the SET job at the start event then the CLEAR job at the
stop event. -/
def roleValidationJobs (brightOffset : Int) :
    Int × String × String × Bool → List ValidationJob
  | (bit, start, stop, accountOffset) =>
    if 0 ≤ bit then
      [⟨"set", .intId bit, start, if accountOffset then brightOffset else 0⟩,
       ⟨"clear", .intId bit, stop, if accountOffset then -brightOffset else 0⟩]
    else []

/-! ## Concrete documents and configurations used as witnesses -/

/-- A 1.0 document: horizon bit 200 enabled, all other bits disabled,
automation id 0, bright offset 60. -/
def rawScenario1 : RawConfig :=
  { coordinates := some "1.0;2.0", horizon_bit := some 200, civil_bit := some (-1),
    nautical_bit := some (-1), astronomical_bit := some (-1), bright_bit := some (-1),
    bright_offset := some 60, group_action := some 0 }

/-- The configuration `rawScenario1` migrates to. -/
def cfgScenario1 : Configuration :=
  ⟨(coordinatesFromString "1.0;2.0").getD ⟨0, 0⟩,
   [⟨.intId 0, "sunrise", 0⟩, ⟨.intId 0, "sunset", 0⟩],
   [⟨"set", .intId 200, "sunrise", 0⟩, ⟨"clear", .intId 200, "sunset", 0⟩],
   .v3⟩

/-- A 2.0 document (no `version` field, both job lists present). -/
def rawV2Doc : RawConfig :=
  { coordinates := some "1.0;2.0",
    basic_configuration := some
      [⟨.intId 3, "sunset", .str "30"⟩, ⟨.intId 5, "sunrise", .str "-90"⟩],
    advanced_configuration := some [⟨"set", .intId 4, "civil dawn", .null⟩] }

/-- The configuration `rawV2Doc` migrates to. -/
def cfgV2Doc : Configuration :=
  ⟨(coordinatesFromString "1.0;2.0").getD ⟨0, 0⟩,
   [⟨.intId 3, "sunset", 30⟩, ⟨.intId 5, "sunrise", -90⟩],
   [⟨"set", .intId 4, "civil dawn", 0⟩],
   .v3⟩

/-- A 3.0 document. -/
def rawV3Doc : RawConfig :=
  { version := some "3.0", coordinates := some "1.0;2.0",
    basic_configuration := some [⟨.intId 3, "sunset", .str "30"⟩],
    advanced_configuration := some [⟨"clear", .intId 9, "solar noon", .str ""⟩] }

/-- The configuration `rawV3Doc` migrates to. -/
def cfgV3Doc : Configuration :=
  ⟨(coordinatesFromString "1.0;2.0").getD ⟨0, 0⟩,
   [⟨.intId 3, "sunset", 30⟩],
   [⟨"clear", .intId 9, "solar noon", 0⟩],
   .v3⟩

/-- A configuration whose single group-action job names an unrecognized
sun location. -/
def c3CounterexampleConfig : Configuration :=
  ⟨⟨0, 0⟩, [⟨.intId 0, "bogus", 0⟩], [], .v3⟩

/-- A configuration with a string-valued group-action id, used to
exercise the validator's coercion. -/
def c3WitnessConfig : Configuration :=
  ⟨⟨0, 0⟩, [⟨.strId "7", "sunrise", 0⟩], [⟨"set", .intId 3, "sunset", 5⟩], .v3⟩

/-- `c3WitnessConfig` after validation: the string id is coerced. -/
def c3WitnessConfigCoerced : Configuration :=
  ⟨⟨0, 0⟩, [⟨.intId 7, "sunrise", 0⟩], [⟨"set", .intId 3, "sunset", 5⟩], .v3⟩

/-- A neutral stored configuration. -/
def someConfig : Configuration := ⟨⟨0, 0⟩, [], [], .v3⟩

/-- Plan-builder inputs for the C4 witness: one bit action at sunrise. -/
def c4Bits : String → List BAction := fun s => if s = "sunrise" then [⟨7, "set", 0⟩] else []

/-- No group actions for the C4 witness. -/
def c4Group : String → List GAction := fun _ => []

/-- Solar results for the C4 witness: sunrise at 1000. -/
def c4Results : String → Option RawTs :=
  fun s => if s = "sunrise" then some (.value 1000) else none

/-- Iteration order for the C5 counterexample. -/
def c5Order : List String := ["sunrise", "sunset"]

/-- One group action anchored to sunrise, offset 0. -/
def c5Group : String → List GAction := fun s => if s = "sunrise" then [⟨2, 0⟩] else []

/-- One bit action anchored to sunset, offset +10 minutes. -/
def c5Bits : String → List BAction := fun s => if s = "sunset" then [⟨1, "set", 10⟩] else []

/-- Solar results making the two actions collide at fire time 600:
sunrise at 600 and sunset at 0. -/
def c5Results : String → Option RawTs :=
  fun s =>
    if s = "sunrise" then some (.value 600)
    else if s = "sunset" then some (.value 0)
    else none

/-- A plan entry for the C9 counterexample. -/
def c9Entry : PlanEntry := ⟨("sunrise", 0), .group_action 1⟩

/-- Pointwise relation between a raw `basic_configuration` element and
the `GroupActionJob` migration produces from it: the id and sun location
are copied, the offset is the `int(offset or 0)` coercion, and a null or
empty offset becomes 0. -/
def basicJobRel (j : RawBasicJob) (j' : GroupActionJob) : Prop :=
  j'.group_action_id = j.group_action_id ∧ j'.sun_location = j.sun_location ∧
  pyOrZeroInt j.offset = .ok j'.offset ∧
  ((j.offset = .null ∨ j.offset = .str "") → j'.offset = 0)

/-- Pointwise relation between a raw `advanced_configuration` element
and the `ValidationJob` migration produces from it. -/
def advancedJobRel (j : RawAdvancedJob) (j' : ValidationJob) : Prop :=
  j'.action = j.action ∧ j'.bit_id = j.bit_id ∧ j'.sun_location = j.sun_location ∧
  pyOrZeroInt j.offset = .ok j'.offset ∧
  ((j.offset = .null ∨ j.offset = .str "") → j'.offset = 0)

theorem concatMap_nil (f : α → List β) : concatMap f [] = [] := rfl

theorem concatMap_cons (f : α → List β) (a : α) (as : List α) :
    concatMap f (a :: as) = f a ++ concatMap f as := rfl

theorem mem_concatMap_of_mem {f : α → List β} {l : List α} {a : α} {b : β}
    (ha : a ∈ l) (hb : b ∈ f a) : b ∈ concatMap f l := by
  induction l with
  | nil => cases ha
  | cons x xs ih =>
    rcases List.mem_cons.mp ha with rfl | ha
    · exact List.mem_append_left _ hb
    · exact List.mem_append_right _ (ih ha)

theorem mem_splits {l : List Char} {pr : List Char × List Char} :
    pr ∈ splits l ↔ pr.1 ++ pr.2 = l := by
  induction l generalizing pr with
  | nil =>
    constructor
    · intro h
      rcases List.mem_cons.mp h with rfl | h
      · rfl
      · cases h
    · intro h
      rcases pr with ⟨a, b⟩
      have ha : a = [] := by
        cases a with
        | nil => rfl
        | cons x xs => simp at h
      subst ha
      simp_all [splits]
  | cons x xs ih =>
    constructor
    · intro h
      rcases List.mem_cons.mp h with rfl | h
      · rfl
      · rcases List.mem_map.mp h with ⟨qr, hq, hmap⟩
        have := ih.mp hq
        subst hmap
        simp [← this]
    · intro h
      rcases pr with ⟨a, b⟩
      cases a with
      | nil =>
        simp at h
        simp [splits, h]
      | cons c cs =>
        simp at h
        rcases h with ⟨hc, hcs⟩
        subst hc
        refine List.mem_cons_of_mem _ (List.mem_map.mpr ⟨(cs, b), ih.mpr hcs, rfl⟩)

/-! ## Lemmas about the plan construction -/

theorem lookupPlan_insertPlan (p : ExecutionPlan) (t u : Int) (e : PlanEntry) :
    lookupPlan (insertPlan p t e) u =
      if u = t then lookupPlan p u ++ [e] else lookupPlan p u := by
  induction p with
  | nil =>
    by_cases h : u = t <;> simp [insertPlan, lookupPlan, h]
  | cons pr rest ih =>
    rcases pr with ⟨t', es⟩
    by_cases ht : t = t'
    · subst ht
      by_cases hu : u = t <;> simp [insertPlan, lookupPlan, hu]
    · by_cases hu : u = t'
      · subst hu
        have hut : ¬u = t := fun h => ht h.symm
        simp [insertPlan, lookupPlan, ht, hut]
      · simp [insertPlan, lookupPlan, ht, hu, ih]

theorem lookupPlan_addPlanBatch (pairs : List (Int × PlanEntry)) (p : ExecutionPlan) (u : Int) :
    lookupPlan (addPlanBatch p pairs) u =
      lookupPlan p u ++ (pairs.filter (fun pr => decide (pr.1 = u))).map Prod.snd := by
  induction pairs generalizing p with
  | nil => simp [addPlanBatch]
  | cons pr rest ih =>
    rcases pr with ⟨d, e⟩
    have heq : addPlanBatch p ((d, e) :: rest) = addPlanBatch (insertPlan p d e) rest := rfl
    rw [heq, ih, lookupPlan_insertPlan]
    by_cases h : u = d
    · subst h
      simp
    · have hdu : ¬d = u := fun hh => h hh.symm
      simp [h, hdu]

theorem lookupPlan_locationStep (now : Int) (groupActions : String → List GAction)
    (bits : String → List BAction) (results : String → Option RawTs)
    (p : ExecutionPlan) (loc : String) (u : Int) :
    lookupPlan (locationStep now groupActions bits results p loc) u =
      lookupPlan p u ++ locContribs now groupActions bits results loc u := by
  unfold locationStep locContribs
  by_cases hge : (groupActions loc).isEmpty && (bits loc).isEmpty
  · simp [hge]
  · simp only [hge, if_neg, Bool.not_eq_true]
    cases hconv : convertTs (results (fieldMapGet loc)) with
    | none => simp
    | some et =>
      simp [lookupPlan_addPlanBatch, List.append_assoc]

theorem lookupPlan_foldl (now : Int) (groupActions : String → List GAction)
    (bits : String → List BAction) (results : String → Option RawTs)
    (order : List String) (p : ExecutionPlan) (u : Int) :
    lookupPlan (order.foldl (locationStep now groupActions bits results) p) u =
      lookupPlan p u ++
        concatMap (fun loc => locContribs now groupActions bits results loc u) order := by
  induction order generalizing p with
  | nil => simp [concatMap]
  | cons loc rest ih =>
    simp only [List.foldl_cons, concatMap_cons]
    rw [ih, lookupPlan_locationStep, List.append_assoc]

theorem mem_bitPairs_fst {now : Int} {loc : String} {et : Int} {l : List BAction}
    {pr : Int × PlanEntry} (h : pr ∈ bitPairs now loc et l) :
    now ≤ pr.1 ∧ pr.2.source.1 = loc := by
  rcases List.mem_filterMap.mp h with ⟨a, _, ha⟩
  by_cases hd : et + 60 * a.offset < now
  · simp [hd] at ha
  · simp [hd] at ha
    subst ha
    exact ⟨by omega, rfl⟩

theorem mem_groupPairs_fst {now : Int} {loc : String} {et : Int} {l : List GAction}
    {pr : Int × PlanEntry} (h : pr ∈ groupPairs now loc et l) :
    now ≤ pr.1 ∧ pr.2.source.1 = loc := by
  rcases List.mem_filterMap.mp h with ⟨a, _, ha⟩
  by_cases hd : et + 60 * a.offset < now
  · simp [hd] at ha
  · simp [hd] at ha
    subst ha
    exact ⟨by omega, rfl⟩

theorem keys_insertPlan {p : ExecutionPlan} {t : Int} {e : PlanEntry} {u : Int}
    (h : u ∈ (insertPlan p t e).map Prod.fst) : u ∈ p.map Prod.fst ∨ u = t := by
  induction p with
  | nil =>
    simp [insertPlan] at h
    simp [h]
  | cons q rest ih =>
    rcases q with ⟨t', es⟩
    by_cases ht : t = t'
    · subst ht
      simp only [insertPlan, if_pos rfl, List.map_cons] at h
      rcases List.mem_cons.mp h with rfl | h
      · right; rfl
      · exact Or.inl (by simpa using Or.inr h)
    · simp only [insertPlan, if_neg ht, List.map_cons] at h
      rcases List.mem_cons.mp h with rfl | h
      · exact Or.inl (by simp)
      · rcases ih h with hk | hk
        · exact Or.inl (by simpa using Or.inr (by simpa using hk))
        · exact Or.inr hk

theorem keys_addPlanBatch {pairs : List (Int × PlanEntry)} {p : ExecutionPlan} {u : Int}
    (h : u ∈ (addPlanBatch p pairs).map Prod.fst) :
    u ∈ p.map Prod.fst ∨ u ∈ pairs.map Prod.fst := by
  induction pairs generalizing p with
  | nil => exact Or.inl (by simpa [addPlanBatch] using h)
  | cons q rest ih =>
    rcases q with ⟨d, e⟩
    have heq : addPlanBatch p ((d, e) :: rest) = addPlanBatch (insertPlan p d e) rest := rfl
    rw [heq] at h
    rcases ih h with hk | hk
    · rcases keys_insertPlan hk with hin | hin
      · exact Or.inl hin
      · right
        simp [hin]
    · right
      simp [hk]

theorem keys_locationStep {now : Int} {groupActions : String → List GAction}
    {bits : String → List BAction} {results : String → Option RawTs}
    {p : ExecutionPlan} {loc : String} {u : Int}
    (h : u ∈ (locationStep now groupActions bits results p loc).map Prod.fst) :
    u ∈ p.map Prod.fst ∨ now ≤ u := by
  unfold locationStep at h
  by_cases hge : (groupActions loc).isEmpty && (bits loc).isEmpty
  · rw [if_pos hge] at h
    exact Or.inl h
  · rw [if_neg hge] at h
    cases hconv : convertTs (results (fieldMapGet loc)) with
    | none => rw [hconv] at h; exact Or.inl h
    | some et =>
      rw [hconv] at h
      rcases keys_addPlanBatch h with h2 | hk
      · rcases keys_addPlanBatch h2 with h3 | hk
        · exact Or.inl h3
        · rcases List.mem_map.mp hk with ⟨q, hq, hqf⟩
          have := (mem_bitPairs_fst hq).1
          right; omega
      · rcases List.mem_map.mp hk with ⟨q, hq, hqf⟩
        have := (mem_groupPairs_fst hq).1
        right; omega

theorem keys_buildExecutionPlan {now : Int} {order : List String}
    {groupActions : String → List GAction} {bits : String → List BAction}
    {results : String → Option RawTs} {u : Int}
    (h : u ∈ (buildExecutionPlan now order groupActions bits results).map Prod.fst) :
    now ≤ u := by
  suffices hgen : ∀ (ord : List String) (p : ExecutionPlan),
      u ∈ (ord.foldl (locationStep now groupActions bits results) p).map Prod.fst →
      u ∈ p.map Prod.fst ∨ now ≤ u by
    rcases hgen order [] h with hin | hle
    · simp at hin
    · exact hle
  intro ord
  induction ord with
  | nil => exact fun p hp => Or.inl hp
  | cons loc rest ih =>
    intro p hp
    rcases ih _ hp with hin | hle
    · exact keys_locationStep hin
    · exact Or.inr hle

theorem memEntries_insertPlan {p : ExecutionPlan} {t : Int} {e : PlanEntry} {x : PlanEntry}
    (h : memEntries x (insertPlan p t e)) : memEntries x p ∨ x = e := by
  induction p with
  | nil =>
    rcases h with ⟨q, hq, hx⟩
    simp [insertPlan] at hq
    subst hq
    simp at hx
    exact Or.inr hx
  | cons pr rest ih =>
    rcases pr with ⟨t', es⟩
    by_cases ht : t = t'
    · subst ht
      rcases h with ⟨q, hq, hx⟩
      simp only [insertPlan, if_pos rfl] at hq
      rcases List.mem_cons.mp hq with rfl | hq
      · rcases List.mem_append.mp hx with hx | hx
        · exact Or.inl ⟨(t, es), List.mem_cons_self _ _, hx⟩
        · simp at hx
          exact Or.inr hx
      · exact Or.inl ⟨q, List.mem_cons_of_mem _ hq, hx⟩
    · rcases h with ⟨q, hq, hx⟩
      simp only [insertPlan, if_neg ht] at hq
      rcases List.mem_cons.mp hq with rfl | hq
      · exact Or.inl ⟨(t', es), List.mem_cons_self _ _, hx⟩
      · rcases ih ⟨q, hq, hx⟩ with hm | hm
        · rcases hm with ⟨q', hq', hx'⟩
          exact Or.inl ⟨q', List.mem_cons_of_mem _ hq', hx'⟩
        · exact Or.inr hm

theorem memEntries_addPlanBatch {pairs : List (Int × PlanEntry)} {p : ExecutionPlan}
    {x : PlanEntry} (h : memEntries x (addPlanBatch p pairs)) :
    memEntries x p ∨ ∃ c ∈ pairs, x = c.2 := by
  induction pairs generalizing p with
  | nil => exact Or.inl h
  | cons c rest ih =>
    rcases c with ⟨d, e⟩
    have heq : addPlanBatch p ((d, e) :: rest) = addPlanBatch (insertPlan p d e) rest := rfl
    rw [heq] at h
    rcases ih h with hm | hm
    · rcases memEntries_insertPlan hm with hm2 | hm2
      · exact Or.inl hm2
      · exact Or.inr ⟨(d, e), List.mem_cons_self _ _, hm2⟩
    · rcases hm with ⟨c, hc, hx⟩
      exact Or.inr ⟨c, List.mem_cons_of_mem _ hc, hx⟩

theorem memEntries_locationStep {now : Int} {groupActions : String → List GAction}
    {bits : String → List BAction} {results : String → Option RawTs}
    {p : ExecutionPlan} {loc : String} {x : PlanEntry}
    (h : memEntries x (locationStep now groupActions bits results p loc)) :
    memEntries x p ∨
      (x.source.1 = loc ∧ (convertTs (results (fieldMapGet loc))).isSome = true) := by
  unfold locationStep at h
  by_cases hge : (groupActions loc).isEmpty && (bits loc).isEmpty
  · rw [if_pos hge] at h
    exact Or.inl h
  · rw [if_neg hge] at h
    cases hconv : convertTs (results (fieldMapGet loc)) with
    | none => rw [hconv] at h; exact Or.inl h
    | some et =>
      rw [hconv] at h
      rcases memEntries_addPlanBatch h with h2 | hc
      · rcases memEntries_addPlanBatch h2 with h3 | hc
        · exact Or.inl h3
        · rcases hc with ⟨c, hc, hx⟩
          have := (mem_bitPairs_fst hc).2
          right
          rw [hx]
          exact ⟨this, rfl⟩
      · rcases hc with ⟨c, hc, hx⟩
        have := (mem_groupPairs_fst hc).2
        right
        rw [hx]
        exact ⟨this, rfl⟩

theorem memEntries_buildExecutionPlan {now : Int} {order : List String}
    {groupActions : String → List GAction} {bits : String → List BAction}
    {results : String → Option RawTs} {x : PlanEntry}
    (h : memEntries x (buildExecutionPlan now order groupActions bits results)) :
    (convertTs (results (fieldMapGet x.source.1))).isSome = true := by
  suffices hgen : ∀ (ord : List String) (p : ExecutionPlan),
      memEntries x (ord.foldl (locationStep now groupActions bits results) p) →
      memEntries x p ∨ (convertTs (results (fieldMapGet x.source.1))).isSome = true by
    rcases hgen order [] h with hin | hle
    · rcases hin with ⟨q, hq, _⟩
      cases hq
    · exact hle
  intro ord
  induction ord with
  | nil => exact fun p hp => Or.inl hp
  | cons loc rest ih =>
    intro p hp
    rcases ih _ hp with hin | hle
    · rcases memEntries_locationStep hin with hm | ⟨hsrc, hsome⟩
      · exact Or.inl hm
      · right
        rwa [hsrc]
    · exact Or.inr hle

/-! ## Lemmas about the dispatch scan -/

theorem dispatchScanLoop_remaining (now : Int) (plan : ExecutionPlan) (best : Int × Nat) :
    (dispatchScanLoop now plan best).1 =
      plan.filter (fun pr => decide (300 < (pr.1 - now).natAbs)) := by
  induction plan generalizing best with
  | nil => simp [dispatchScanLoop]
  | cons pr rest ih =>
    rcases pr with ⟨d, es⟩
    by_cases hd : 300 < (d - now).natAbs
    · simp [dispatchScanLoop, hd, ih]
    · simp [dispatchScanLoop, hd, ih]

theorem dispatchScanLoop_dispatched (now : Int) (plan : ExecutionPlan) (best : Int × Nat) :
    (dispatchScanLoop now plan best).2.1 =
      concatMap Prod.snd (plan.filter (fun pr => decide ((pr.1 - now).natAbs ≤ 300))) := by
  induction plan generalizing best with
  | nil => simp [dispatchScanLoop, concatMap]
  | cons pr rest ih =>
    rcases pr with ⟨d, es⟩
    by_cases hd : 300 < (d - now).natAbs
    · have hd2 : ¬(d - now).natAbs ≤ 300 := by omega
      simp [dispatchScanLoop, hd, hd2, ih]
    · have hd2 : (d - now).natAbs ≤ 300 := by omega
      simp [dispatchScanLoop, hd, hd2, ih, concatMap_cons]

theorem dispatchScanLoop_best (now : Int) (plan : ExecutionPlan) (best : Int × Nat) :
    (dispatchScanLoop now plan best).2.2 = bestFold now (plan.map Prod.fst) best := by
  induction plan generalizing best with
  | nil => simp [dispatchScanLoop, bestFold]
  | cons pr rest ih =>
    rcases pr with ⟨d, es⟩
    by_cases hd : 300 < (d - now).natAbs
    · by_cases hc : now < d ∧ (d - now).natAbs < best.2
      · have hc' : now < d ∧ 300 < (d - now).natAbs ∧ (d - now).natAbs < best.2 :=
          ⟨hc.1, hd, hc.2⟩
        simp [dispatchScanLoop, bestFold, hd, hc, hc', ih]
      · have hc' : ¬(now < d ∧ 300 < (d - now).natAbs ∧ (d - now).natAbs < best.2) := by
          intro h
          exact hc ⟨h.1, h.2.2⟩
        simp [dispatchScanLoop, bestFold, hd, hc, hc', ih]
    · have hc' : ¬(now < d ∧ 300 < (d - now).natAbs ∧ (d - now).natAbs < best.2) := by
        intro h
        exact hd h.2.1
      simp [dispatchScanLoop, bestFold, hd, hc', ih]

theorem minOr_eq_foldl {L : List Int} {d : Int} (h : ∀ x ∈ L, x ≤ d) :
    minOr L d = L.foldl min d := by
  cases L with
  | nil => rfl
  | cons x xs =>
    have hx : min d x = x := min_eq_right (h x (List.mem_cons_self _ _))
    simp [minOr, hx]

theorem foldl_min_filter_congr {p q : Int → Bool} :
    ∀ (ds : List Int) (d : Int), (∀ e, p e = true → q e = true) →
      (∀ e, q e = true → p e = true ∨ d ≤ e) →
      (ds.filter q).foldl min d = (ds.filter p).foldl min d := by
  intro ds
  induction ds with
  | nil => intro d _ _; rfl
  | cons e ds ih =>
    intro d hpq hqp
    by_cases hq : q e = true
    · by_cases hp : p e = true
      · rw [List.filter_cons_of_pos hq, List.filter_cons_of_pos hp]
        simp only [List.foldl_cons]
        refine ih (min d e) hpq (fun e' he' => ?_)
        rcases hqp e' he' with h | h
        · exact Or.inl h
        · exact Or.inr (le_trans (min_le_left _ _) h)
      · rcases hqp e hq with h | h
        · exact absurd h hp
        · rw [List.filter_cons_of_pos hq, List.filter_cons_of_neg (by simp [hp])]
          simp only [List.foldl_cons]
          rw [min_eq_left h]
          exact ih d hpq hqp
    · have hp : ¬p e = true := fun h => hq (hpq e h)
      rw [List.filter_cons_of_neg (by simp [hq]), List.filter_cons_of_neg (by simp [hp])]
      exact ih d hpq hqp

theorem bestFold_spec (now : Int) :
    ∀ (ds : List Int) (a : Int) (delta : Nat),
      (bestFold now ds (a, delta)).1 = minOr (ds.filter (wakeCandidate now delta)) a := by
  intro ds
  induction ds with
  | nil => intro a delta; rfl
  | cons d ds ih =>
    intro a delta
    by_cases hd : now < d ∧ 300 < (d - now).natAbs ∧ (d - now).natAbs < delta
    · have hwc : wakeCandidate now delta d = true := by
        simp [wakeCandidate, hd]
      rw [List.filter_cons_of_pos hwc]
      have hstep : bestFold now (d :: ds) (a, delta) =
          bestFold now ds (d, (d - now).natAbs) := by
        simp [bestFold, hd]
      rw [hstep, ih]
      have hbound : ∀ x ∈ ds.filter (wakeCandidate now ((d - now).natAbs)), x ≤ d := by
        intro x hx
        have := List.of_mem_filter hx
        simp only [wakeCandidate, decide_eq_true_eq] at this
        omega
      rw [minOr_eq_foldl hbound]
      have hsub : ∀ e, wakeCandidate now ((d - now).natAbs) e = true →
          wakeCandidate now delta e = true := by
        intro e he
        simp only [wakeCandidate, decide_eq_true_eq] at he ⊢
        omega
      have hsup : ∀ e, wakeCandidate now delta e = true →
          wakeCandidate now ((d - now).natAbs) e = true ∨ d ≤ e := by
        intro e he
        simp only [wakeCandidate, decide_eq_true_eq] at he ⊢
        omega
      rw [← foldl_min_filter_congr ds d hsub hsup]
      rfl
    · have hwc : ¬wakeCandidate now delta d = true := by
        simp [wakeCandidate, hd]
      rw [List.filter_cons_of_neg hwc]
      have hstep : bestFold now (d :: ds) (a, delta) = bestFold now ds (a, delta) := by
        simp [bestFold, hd]
      rw [hstep, ih]

theorem v1JobsFold_eq (groupActionId brightOffset : Int)
    (roles : List (Int × String × String × Bool)) :
    v1JobsFold groupActionId brightOffset roles =
      (concatMap (roleGroupJobs groupActionId brightOffset) roles,
       concatMap (roleValidationJobs brightOffset) roles) := by
  suffices hgen : ∀ (rs : List (Int × String × String × Bool))
      (g0 : List GroupActionJob) (v0 : List ValidationJob),
      rs.foldl
        (fun acc r =>
          let (bit, start, stop, accountOffset) := r
          if 0 ≤ bit then
            (acc.1 ++
               [⟨.intId groupActionId, start, if accountOffset then brightOffset else 0⟩,
                ⟨.intId groupActionId, stop, if accountOffset then -brightOffset else 0⟩],
             acc.2 ++
               [⟨"set", .intId bit, start, if accountOffset then brightOffset else 0⟩,
                ⟨"clear", .intId bit, stop, if accountOffset then -brightOffset else 0⟩])
          else acc)
        (g0, v0) =
      (g0 ++ concatMap (roleGroupJobs groupActionId brightOffset) rs,
       v0 ++ concatMap (roleValidationJobs brightOffset) rs) by
    have := hgen roles [] []
    simpa [v1JobsFold] using this
  intro rs
  induction rs with
  | nil => intro g0 v0; simp [concatMap]
  | cons r rest ih =>
    intro g0 v0
    rcases r with ⟨bit, start, stop, accountOffset⟩
    by_cases hb : 0 ≤ bit
    · simp only [List.foldl_cons, if_pos hb, ih, concatMap_cons,
        roleGroupJobs, roleValidationJobs, if_pos hb]
      simp [List.append_assoc]
    · simp only [List.foldl_cons, if_neg hb, ih, concatMap_cons,
        roleGroupJobs, roleValidationJobs, if_neg hb]
      simp

/-- Success shape of `_migrate_configuration_v1`: the two job lists are
role-by-role concatenations in the fixed role order. -/
theorem migrateV1_ok_jobs {raw : RawConfig} {cfg : Configuration}
    (h : migrateConfigurationV1 raw = .ok cfg) :
    cfg.group_action_jobs =
      concatMap (roleGroupJobs (raw.group_action.getD (-1)) (raw.bright_offset.getD 0))
        (v1Roles raw) ∧
    cfg.validation_jobs =
      concatMap (roleValidationJobs (raw.bright_offset.getD 0)) (v1Roles raw) ∧
    cfg.version = .v3 := by
  unfold migrateConfigurationV1 at h
  split at h
  · cases h
  · split at h
    · cases h
    · split at h
      · cases h
      · split at h
        · cases h
        · split at h
          · cases h
          · simp only [v1JobsFold_eq] at h
            cases h
            exact ⟨rfl, rfl, rfl⟩

/-- Success of the verifier's group-job loop is equivalent to every id
being coercible and non-negative; `sun_location` plays no role. -/
theorem verifyGroupJobs_ok_iff (l : List GroupActionJob) :
    (verifyGroupJobs l).isOk = true ↔ ∀ j ∈ l, idOk j.group_action_id = true := by
  induction l with
  | nil => simp [verifyGroupJobs, Except.isOk, Except.toBool]
  | cons j js ih =>
    constructor
    · intro h j' hj'
      unfold verifyGroupJobs at h
      split at h
      · simp [Except.isOk, Except.toBool] at h
      · rename_i n hc
        split at h
        · simp [Except.isOk, Except.toBool] at h
        · rename_i hn
          rcases List.mem_cons.mp hj' with rfl | hj'
          · simp [idOk, hc]
            omega
          · split at h
            · simp [Except.isOk, Except.toBool] at h
            · rename_i js' hr
              exact ih.mp (by simp [Except.isOk, Except.toBool, hr]) j' hj'
    · intro h
      have hj := h j (List.mem_cons_self _ _)
      cases hc : coerceId j.group_action_id with
      | error e => simp [idOk, hc] at hj
      | ok n =>
        have hn : ¬n < 0 := by
          simp [idOk, hc] at hj
          omega
        have hrest := ih.mpr (fun j' hj' => h j' (List.mem_cons_of_mem _ hj'))
        cases hr : verifyGroupJobs js with
        | error e => rw [hr] at hrest; simp [Except.isOk, Except.toBool] at hrest
        | ok js' =>
          simp [verifyGroupJobs, hc, hn, hr, Except.isOk, Except.toBool]

/-- Output shape of the verifier's group-job loop: each output job is
its input job with the id coerced to an integer. -/
theorem verifyGroupJobs_ok_forall₂ {l l' : List GroupActionJob}
    (h : verifyGroupJobs l = .ok l') :
    List.Forall₂
      (fun j j' => ∃ n, coerceId j.group_action_id = .ok n ∧ 0 ≤ n ∧
        j' = { j with group_action_id := .intId n }) l l' := by
  induction l generalizing l' with
  | nil =>
    cases h
    exact List.Forall₂.nil
  | cons j js ih =>
    unfold verifyGroupJobs at h
    split at h
    · cases h
    · rename_i n hc
      split at h
      · cases h
      · rename_i hn
        split at h
        · cases h
        · rename_i js' hr
          cases h
          exact List.Forall₂.cons ⟨n, hc, by omega, rfl⟩ (ih hr)

/-- Success of the verifier's validation-job loop is equivalent to every
bit id passing and every `sun_location` being a recognized token. -/
theorem verifyValidationJobs_ok_iff (l : List ValidationJob) :
    (verifyValidationJobs l).isOk = true ↔
      ∀ j ∈ l, idOk j.bit_id = true ∧ isValidSunLocation j.sun_location = true := by
  induction l with
  | nil => simp [verifyValidationJobs, Except.isOk, Except.toBool]
  | cons j js ih =>
    constructor
    · intro h j' hj'
      unfold verifyValidationJobs at h
      split at h
      · simp [Except.isOk, Except.toBool] at h
      · rename_i n hc
        split at h
        · simp [Except.isOk, Except.toBool] at h
        · rename_i hn
          split at h
          · simp [Except.isOk, Except.toBool] at h
          · rename_i hs
            have hsun : isValidSunLocation j.sun_location = true := by
              revert hs
              cases isValidSunLocation j.sun_location <;> simp
            rcases List.mem_cons.mp hj' with rfl | hj'
            · refine ⟨by simp [idOk, hc]; omega, hsun⟩
            · split at h
              · simp [Except.isOk, Except.toBool] at h
              · rename_i js' hr
                exact ih.mp (by simp [Except.isOk, Except.toBool, hr]) j' hj'
    · intro h
      obtain ⟨hid, hsun⟩ := h j (List.mem_cons_self _ _)
      cases hc : coerceId j.bit_id with
      | error e => simp [idOk, hc] at hid
      | ok n =>
        have hn : ¬n < 0 := by
          simp [idOk, hc] at hid
          omega
        have hrest := ih.mpr (fun j' hj' => h j' (List.mem_cons_of_mem _ hj'))
        cases hr : verifyValidationJobs js with
        | error e => rw [hr] at hrest; simp [Except.isOk, Except.toBool] at hrest
        | ok js' =>
          simp [verifyValidationJobs, hc, hn, hsun, hr, Except.isOk, Except.toBool]

/-- Success of `_verify_configuration` is equivalent to: all group ids
pass, all bit ids pass, and all validation-job `sun_location`s are
recognized — group-action `sun_location`s are never checked. -/
theorem verifyConfiguration_ok_iff (c : Configuration) :
    (verifyConfiguration c).isOk = true ↔
      ((∀ j ∈ c.group_action_jobs, idOk j.group_action_id = true) ∧
       ∀ j ∈ c.validation_jobs,
         idOk j.bit_id = true ∧ isValidSunLocation j.sun_location = true) := by
  unfold verifyConfiguration
  cases hg : verifyGroupJobs c.group_action_jobs with
  | error e =>
    have : ¬(verifyGroupJobs c.group_action_jobs).isOk = true := by
      simp [hg, Except.isOk, Except.toBool]
    simp only [Except.isOk, Except.toBool]
    constructor
    · intro h; cases h
    · intro h
      exact absurd ((verifyGroupJobs_ok_iff _).mpr h.1) this
  | ok g =>
    have hgok : ∀ j ∈ c.group_action_jobs, idOk j.group_action_id = true :=
      (verifyGroupJobs_ok_iff _).mp (by simp [hg, Except.isOk, Except.toBool])
    cases hv : verifyValidationJobs c.validation_jobs with
    | error e =>
      have : ¬(verifyValidationJobs c.validation_jobs).isOk = true := by
        simp [hv, Except.isOk, Except.toBool]
      simp only [Except.isOk, Except.toBool]
      constructor
      · intro h; cases h
      · intro h
        exact absurd ((verifyValidationJobs_ok_iff _).mpr h.2) this
    | ok v =>
      have hvok := (verifyValidationJobs_ok_iff c.validation_jobs).mp
        (by simp [hv, Except.isOk, Except.toBool])
      simp only [Except.isOk, Except.toBool]
      exact iff_of_true trivial ⟨hgok, hvok⟩

/-- Elementwise success characterization of `mapExcept`. -/
theorem mapExcept_ok_forall₂ {f : α → Except String β} {l : List α} {l' : List β}
    (h : mapExcept f l = .ok l') : List.Forall₂ (fun a b => f a = .ok b) l l' := by
  induction l generalizing l' with
  | nil =>
    cases h
    exact List.Forall₂.nil
  | cons a as ih =>
    unfold mapExcept at h
    split at h
    · cases h
    · rename_i b hf
      split at h
      · cases h
      · rename_i bs hr
        cases h
        exact List.Forall₂.cons hf (ih hr)

/-- Success shape of the shared 2.0/3.0 migration body. -/
theorem migrateV2V3Body_ok {raw : RawConfig} {cfg : Configuration}
    (h : migrateV2V3Body raw = .ok cfg) :
    mapExcept rawBasicToJob (raw.basic_configuration.getD []) = .ok cfg.group_action_jobs ∧
    mapExcept rawAdvancedToJob (raw.advanced_configuration.getD []) = .ok cfg.validation_jobs := by
  unfold migrateV2V3Body at h
  split at h
  · cases h
  · split at h
    · cases h
    · split at h
      · cases h
      · split at h
        · cases h
        · rename_i gjobs hg
          split at h
          · cases h
          · rename_i vjobs hv
            cases h
            exact ⟨hg, hv⟩

/-! ## Lemmas about the coordinate pattern -/

theorem band_elim {a b : Bool} (h : (a && b) = true) : a = true ∧ b = true := by
  simp at h
  exact h

theorem band_intro {a b : Bool} (h1 : a = true) (h2 : b = true) : (a && b) = true := by
  simp [h1, h2]

/-- The priority-ordered group extraction succeeds exactly when the
backtracking match succeeds. -/
theorem extractGroups_isSome_iff (l : List Char) :
    (extractGroups l).isSome = true ↔ coordPatternMatch l = true := by
  constructor
  · intro h
    unfold extractGroups at h
    cases hf : (splits l).reverse.find? (fun pr => numFull pr.1 && restMatch pr.2) with
    | none => rw [hf] at h; simp at h
    | some pr =>
      have hp := List.find?_some hf
      have hmem : pr ∈ (splits l).reverse := List.mem_of_find?_eq_some hf
      exact List.any_eq_true.mpr ⟨pr, List.mem_reverse.mp hmem, hp⟩
  · intro h
    rcases List.any_eq_true.mp h with ⟨pr, hmem, hp⟩
    have h1 : ((splits l).reverse.find? (fun pr => numFull pr.1 && restMatch pr.2)).isSome :=
      List.find?_isSome.mpr ⟨pr, List.mem_reverse.mpr hmem, hp⟩
    unfold extractGroups
    cases hf1 : (splits l).reverse.find? (fun pr => numFull pr.1 && restMatch pr.2) with
    | none => rw [hf1] at h1; simp at h1
    | some pr1 =>
      rcases pr1 with ⟨n1, r1⟩
      have hp1 := List.find?_some hf1
      have hrest : restMatch r1 = true := (band_elim hp1).2
      have h2 : ((splits r1).find? (fun pr => noNL pr.1 && sepRest pr.2)).isSome :=
        List.find?_isSome.mpr (by
          rcases List.any_eq_true.mp hrest with ⟨qr, hq, hqp⟩
          exact ⟨qr, hq, hqp⟩)
      cases hf2 : (splits r1).find? (fun pr => noNL pr.1 && sepRest pr.2) with
      | none => rw [hf2] at h2; simp at h2
      | some pr2 =>
        rcases pr2 with ⟨g1, r2⟩
        have hp2 := List.find?_some hf2
        have hsep : sepRest r2 = true := (band_elim hp2).2
        cases r2 with
        | nil => simp [sepRest] at hsep
        | cons c r3 =>
          have htail : tail2Match r3 = true := (band_elim hsep).2
          have h3 : ((splits r3).find? (fun pr => noNL pr.1 && tailNum pr.2)).isSome :=
            List.find?_isSome.mpr (by
              rcases List.any_eq_true.mp htail with ⟨qr, hq, hqp⟩
              exact ⟨qr, hq, hqp⟩)
          cases hf3 : (splits r3).find? (fun pr => noNL pr.1 && tailNum pr.2) with
          | none => rw [hf3] at h3; simp at h3
          | some pr3 => simp [hf2, hf3]

/-- Success of the backtracking match, stated as the existence of a
decomposition of the text. -/
theorem coordPatternMatch_iff_exists (l : List Char) :
    coordPatternMatch l = true ↔
      ∃ n1 g1 c g2 t, l = n1 ++ g1 ++ c :: g2 ++ t ∧ numFull n1 = true ∧
        noNL g1 = true ∧ sepChar c = true ∧ noNL g2 = true ∧ tailNum t = true := by
  constructor
  · intro h
    rcases List.any_eq_true.mp h with ⟨⟨n1, r1⟩, hmem1, hp1⟩
    have hl1 : n1 ++ r1 = l := mem_splits.mp hmem1
    rcases band_elim hp1 with ⟨hnum, hrest⟩
    rcases List.any_eq_true.mp hrest with ⟨⟨g1, r2⟩, hmem2, hp2⟩
    have hl2 : g1 ++ r2 = r1 := mem_splits.mp hmem2
    rcases band_elim hp2 with ⟨hg1, hsep⟩
    cases r2 with
    | nil => simp [sepRest] at hsep
    | cons c r3 =>
      rcases band_elim hsep with ⟨hc, htail⟩
      rcases List.any_eq_true.mp htail with ⟨⟨g2, t⟩, hmem3, hp3⟩
      have hl3 : g2 ++ t = r3 := mem_splits.mp hmem3
      rcases band_elim hp3 with ⟨hg2, ht⟩
      refine ⟨n1, g1, c, g2, t, ?_, hnum, hg1, hc, hg2, ht⟩
      rw [← hl1, ← hl2, ← hl3]
      simp
  · rintro ⟨n1, g1, c, g2, t, rfl, hnum, hg1, hc, hg2, ht⟩
    refine List.any_eq_true.mpr ⟨(n1, g1 ++ c :: g2 ++ t), mem_splits.mpr (by simp), ?_⟩
    refine band_intro hnum ?_
    refine List.any_eq_true.mpr ⟨(g1, c :: g2 ++ t), mem_splits.mpr (by simp), ?_⟩
    refine band_intro hg1 ?_
    show (sepChar c && tail2Match (g2 ++ t)) = true
    refine band_intro hc ?_
    exact List.any_eq_true.mpr ⟨(g2, t), mem_splits.mpr (by simp), band_intro hg2 ht⟩

/-- A list drawn from newline-free characters is newline-free. -/
theorem noNL_of_subset {l m : List Char} (h : noNL m = true) (hsub : ∀ x ∈ l, x ∈ m) :
    noNL l = true :=
  List.all_eq_true.mpr fun x hx => List.all_eq_true.mp h x (hsub x hx)

/-- On newline-free text the trailing-newline case of `$` vanishes. -/
theorem tailNum_of_noNL {t : List Char} (h : noNL t = true) : tailNum t = numFull t := by
  unfold tailNum
  cases hg : t.getLast? with
  | none => simp
  | some c =>
    by_cases hc : c = '\n'
    · subst hc
      exfalso
      have hmem : '\n' ∈ t.getLast? := by simp [hg]
      rcases List.mem_getLast?_eq_getLast hmem with ⟨hne, heq⟩
      have hm : '\n' ∈ t := heq ▸ List.getLast_mem hne
      have := List.all_eq_true.mp h _ hm
      simp at this
    · simp [hc]

/-! ## Claim theorems -/

/-- C1: whenever `_migrate_configuration_v1` succeeds, its validation
jobs are, role by role in the fixed order horizon, civil, nautical,
astronomical, bright, exactly one SET job at the role's dawn/sunrise
event followed by one CLEAR job at its dusk/sunset event for each role
with bit ≥ 0 (and nothing for a role with bit < 0); its group-action
jobs are the matching pairs with the single configured automation id;
the bright role uses offsets `(+bright_offset, -bright_offset)` and the
other four use offset 0. -/
theorem c1_v1_migration_role_jobs (raw : RawConfig) (cfg : Configuration)
    (h : migrateConfigurationV1 raw = .ok cfg) :
    cfg.validation_jobs =
      concatMap (roleValidationJobs (raw.bright_offset.getD 0)) (v1Roles raw) ∧
    cfg.group_action_jobs =
      concatMap (roleGroupJobs (raw.group_action.getD (-1)) (raw.bright_offset.getD 0))
        (v1Roles raw) := by
  have hj := migrateV1_ok_jobs h
  exact ⟨hj.2.1, hj.1⟩

/-- C1 witness: the spec's scenario document with only the horizon bit
enabled. -/
theorem c1_v1_migration_role_jobs_witness :
    cfgScenario1.validation_jobs =
      concatMap (roleValidationJobs (rawScenario1.bright_offset.getD 0)) (v1Roles rawScenario1) ∧
    cfgScenario1.group_action_jobs =
      concatMap
        (roleGroupJobs (rawScenario1.group_action.getD (-1)) (rawScenario1.bright_offset.getD 0))
        (v1Roles rawScenario1) :=
  c1_v1_migration_role_jobs rawScenario1 cfgScenario1 rfl

/-- Per-element success shape of the basic-configuration conversion. -/
theorem rawBasicToJob_rel {j : RawBasicJob} {j' : GroupActionJob}
    (h : rawBasicToJob j = .ok j') : basicJobRel j j' := by
  unfold rawBasicToJob at h
  split at h
  · split at h
    · rename_i off hoff
      cases h
      refine ⟨rfl, rfl, hoff, ?_⟩
      rintro (hn | hn) <;> (rw [hn] at hoff; simp [pyOrZeroInt] at hoff; show off = 0; omega)
    · cases h
  · cases h

/-- Per-element success shape of the advanced-configuration
conversion. -/
theorem rawAdvancedToJob_rel {j : RawAdvancedJob} {j' : ValidationJob}
    (h : rawAdvancedToJob j = .ok j') : advancedJobRel j j' := by
  unfold rawAdvancedToJob at h
  split at h
  · split at h
    · split at h
      · rename_i off hoff
        cases h
        refine ⟨rfl, rfl, rfl, hoff, ?_⟩
        rintro (hn | hn) <;> (rw [hn] at hoff; simp [pyOrZeroInt] at hoff; show off = 0; omega)
      · cases h
    · cases h
  · cases h

/-- Success shape of the shared 2.0/3.0 body as elementwise relations. -/
theorem migrateV2V3Body_forall₂ {raw : RawConfig} {cfg : Configuration}
    (h : migrateV2V3Body raw = .ok cfg) :
    List.Forall₂ basicJobRel (raw.basic_configuration.getD []) cfg.group_action_jobs ∧
    List.Forall₂ advancedJobRel (raw.advanced_configuration.getD []) cfg.validation_jobs := by
  obtain ⟨hg, hv⟩ := migrateV2V3Body_ok h
  constructor
  · exact (mapExcept_ok_forall₂ hg).imp (fun a b hab => rawBasicToJob_rel hab)
  · exact (mapExcept_ok_forall₂ hv).imp (fun a b hab => rawAdvancedToJob_rel hab)

/-- C2: whenever the 2.0 or 3.0 migration succeeds, its group-action
jobs are the `basic_configuration` elements in order with
group_action_id and sun_location copied unchanged and a null or empty
offset coerced to 0, and its validation jobs are likewise the
`advanced_configuration` elements in order. -/
theorem c2_v2_v3_identity_mapping (raw : RawConfig) :
    (∀ cfg, migrateConfigurationV2 raw = .ok cfg →
      List.Forall₂ basicJobRel (raw.basic_configuration.getD []) cfg.group_action_jobs ∧
      List.Forall₂ advancedJobRel (raw.advanced_configuration.getD []) cfg.validation_jobs) ∧
    (∀ cfg, migrateConfigurationV3 raw = .ok cfg →
      List.Forall₂ basicJobRel (raw.basic_configuration.getD []) cfg.group_action_jobs ∧
      List.Forall₂ advancedJobRel (raw.advanced_configuration.getD []) cfg.validation_jobs) := by
  constructor
  · intro cfg h
    unfold migrateConfigurationV2 at h
    split at h
    · cases h
    · split at h
      · cases h
      · exact migrateV2V3Body_forall₂ h
  · intro cfg h
    unfold migrateConfigurationV3 at h
    split at h
    · cases h
    · split at h
      · cases h
      · exact migrateV2V3Body_forall₂ h

/-- C2 witness: concrete 2.0 and 3.0 documents with string, null and
empty offsets. -/
theorem c2_v2_v3_identity_mapping_witness :
    (List.Forall₂ basicJobRel (rawV2Doc.basic_configuration.getD []) cfgV2Doc.group_action_jobs ∧
     List.Forall₂ advancedJobRel (rawV2Doc.advanced_configuration.getD [])
       cfgV2Doc.validation_jobs) ∧
    (List.Forall₂ basicJobRel (rawV3Doc.basic_configuration.getD []) cfgV3Doc.group_action_jobs ∧
     List.Forall₂ advancedJobRel (rawV3Doc.advanced_configuration.getD [])
       cfgV3Doc.validation_jobs) :=
  ⟨(c2_v2_v3_identity_mapping rawV2Doc).1 cfgV2Doc rfl,
   (c2_v2_v3_identity_mapping rawV3Doc).2 cfgV3Doc rfl⟩

/-- C3 counterexample: a configuration whose group-action job carries
the unrecognized sun location `"bogus"` passes `_verify_configuration`,
so validation does not reject every job with an invalid sun location —
only validation jobs are checked. -/
theorem c3_counterexample_group_sun_unchecked :
    (verifyConfiguration c3CounterexampleConfig).isOk = true ∧
    isValidSunLocation "bogus" = false ∧
    c3CounterexampleConfig.group_action_jobs.map GroupActionJob.sun_location = ["bogus"] :=
  ⟨rfl, rfl, rfl⟩

/-- C3 amended: `_verify_configuration` succeeds exactly when every id
(group-action and bit) is coercible and non-negative and every
validation job's sun location is recognized; group-action sun locations
are not checked.  On success, string ids are coerced to integers. -/
theorem c3_amended_validate (c : Configuration) :
    ((verifyConfiguration c).isOk = true ↔
      ((∀ j ∈ c.group_action_jobs, idOk j.group_action_id = true) ∧
       ∀ j ∈ c.validation_jobs,
         idOk j.bit_id = true ∧ isValidSunLocation j.sun_location = true)) ∧
    (∀ c', verifyConfiguration c = .ok c' →
      List.Forall₂
        (fun j j' => ∃ n, coerceId j.group_action_id = .ok n ∧ 0 ≤ n ∧
          j' = { j with group_action_id := .intId n })
        c.group_action_jobs c'.group_action_jobs) := by
  refine ⟨verifyConfiguration_ok_iff c, ?_⟩
  intro c' h
  unfold verifyConfiguration at h
  split at h
  · cases h
  · rename_i g hg
    split at h
    · cases h
    · rename_i v hv
      cases h
      exact verifyGroupJobs_ok_forall₂ hg

/-- C3 amended witness: a configuration with a string id `"7"` that the
validator coerces to the integer 7. -/
theorem c3_amended_validate_witness :
    ((verifyConfiguration c3WitnessConfig).isOk = true ↔
      ((∀ j ∈ c3WitnessConfig.group_action_jobs, idOk j.group_action_id = true) ∧
       ∀ j ∈ c3WitnessConfig.validation_jobs,
         idOk j.bit_id = true ∧ isValidSunLocation j.sun_location = true)) ∧
    List.Forall₂
      (fun j j' => ∃ n, coerceId j.group_action_id = .ok n ∧ 0 ≤ n ∧
        j' = { j with group_action_id := .intId n })
      c3WitnessConfig.group_action_jobs c3WitnessConfigCoerced.group_action_jobs :=
  ⟨(c3_amended_validate c3WitnessConfig).1,
   (c3_amended_validate c3WitnessConfig).2 c3WitnessConfigCoerced rfl⟩

/-- C7: the factory's stored configuration is unchanged whenever
`parse_configuration` fails, and is replaced by the new configuration
exactly when migration and validation both succeed. -/
theorem c7_previous_config_retained (prev : Option Configuration) (raw : RawConfig) :
    ((factoryParseConfiguration prev raw).2.isOk = false →
      (factoryParseConfiguration prev raw).1 = prev) ∧
    (∀ c, (factoryParseConfiguration prev raw).2 = .ok c →
      (factoryParseConfiguration prev raw).1 = some c) := by
  unfold factoryParseConfiguration
  cases hp : parseConfiguration raw with
  | error e =>
    refine ⟨fun _ => rfl, fun c hc => ?_⟩
    cases hc
  | ok c0 =>
    refine ⟨fun h => ?_, fun c hc => ?_⟩
    · simp [Except.isOk, Except.toBool] at h
    · cases hc
      rfl

/-- C7 witness: a document without coordinates leaves the stored
configuration untouched; a valid 3.0 document replaces it. -/
theorem c7_previous_config_retained_witness :
    (factoryParseConfiguration (some someConfig) ({} : RawConfig)).1 = some someConfig ∧
    (factoryParseConfiguration none rawV3Doc).1 = some cfgV3Doc :=
  ⟨(c7_previous_config_retained (some someConfig) {}).1 rfl,
   (c7_previous_config_retained none rawV3Doc).2 cfgV3Doc rfl⟩

/-- There is an enabled role in `v1Roles raw` as soon as one of the five
bit fields is non-negative. -/
theorem exists_enabled_role {raw : RawConfig}
    (hbit : 0 ≤ raw.horizon_bit.getD (-1) ∨ 0 ≤ raw.civil_bit.getD (-1) ∨
      0 ≤ raw.nautical_bit.getD (-1) ∨ 0 ≤ raw.astronomical_bit.getD (-1) ∨
      0 ≤ raw.bright_bit.getD (-1)) :
    ∃ r ∈ v1Roles raw, 0 ≤ r.1 := by
  rcases hbit with h | h | h | h | h
  · exact ⟨(raw.horizon_bit.getD (-1), "sunrise", "sunset", false), by simp [v1Roles], h⟩
  · exact ⟨(raw.civil_bit.getD (-1), "civil dawn", "civil dusk", false), by simp [v1Roles], h⟩
  · exact ⟨(raw.nautical_bit.getD (-1), "nautical dawn", "nautical dusk", false),
      by simp [v1Roles], h⟩
  · exact ⟨(raw.astronomical_bit.getD (-1), "astronomical dawn", "astronomical dusk", false),
      by simp [v1Roles], h⟩
  · exact ⟨(raw.bright_bit.getD (-1), "sunrise", "sunset", true), by simp [v1Roles], h⟩

/-- C10: a 1.0 document with at least one enabled bit role and an absent
or negative `group_action` can never produce a configuration:
`parse_configuration` fails (migration emits group-action jobs carrying
the defaulted id, which validation rejects as negative) and the stored
configuration is untouched. -/
theorem c10_v1_negative_group_action (raw : RawConfig) (prev : Option Configuration)
    (hv : determineConfigurationVersion raw = .ok .v1)
    (hbit : 0 ≤ raw.horizon_bit.getD (-1) ∨ 0 ≤ raw.civil_bit.getD (-1) ∨
      0 ≤ raw.nautical_bit.getD (-1) ∨ 0 ≤ raw.astronomical_bit.getD (-1) ∨
      0 ≤ raw.bright_bit.getD (-1))
    (hga : raw.group_action.getD (-1) < 0) :
    (factoryParseConfiguration prev raw).2.isOk = false ∧
    (factoryParseConfiguration prev raw).1 = prev := by
  have hfail : ∀ c, parseConfiguration raw ≠ .ok c := by
    intro c hok
    unfold parseConfiguration at hok
    rw [hv] at hok
    simp only [] at hok
    split at hok
    · cases hok
    · rename_i c0 hmig
      obtain ⟨hjobs, _, _⟩ := migrateV1_ok_jobs hmig
      obtain ⟨r, hrmem, hrbit⟩ := exists_enabled_role hbit
      rcases r with ⟨bit, start, stop, acc⟩
      have hj : (⟨.intId (raw.group_action.getD (-1)), start,
          if acc then raw.bright_offset.getD 0 else 0⟩ : GroupActionJob) ∈
          roleGroupJobs (raw.group_action.getD (-1)) (raw.bright_offset.getD 0)
            (bit, start, stop, acc) := by
        simp only [roleGroupJobs, if_pos hrbit]
        exact List.mem_cons_self _ _
      have hmem : (⟨.intId (raw.group_action.getD (-1)), start,
          if acc then raw.bright_offset.getD 0 else 0⟩ : GroupActionJob) ∈
          c0.group_action_jobs := by
        rw [hjobs]
        exact mem_concatMap_of_mem hrmem hj
      have hok' : (verifyConfiguration c0).isOk = true := by
        simp [hok, Except.isOk, Except.toBool]
      have hidok := ((verifyConfiguration_ok_iff c0).mp hok').1 _ hmem
      simp [idOk, coerceId] at hidok
      omega
  unfold factoryParseConfiguration
  cases hp : parseConfiguration raw with
  | error e => exact ⟨rfl, rfl⟩
  | ok c => exact absurd hp (hfail c)

/-- C10 witness: a 1.0 document with an enabled horizon bit and no
`group_action` field. -/
theorem c10_v1_negative_group_action_witness :
    (factoryParseConfiguration (some someConfig)
      { coordinates := some "1.0;2.0", horizon_bit := some 3 }).2.isOk = false ∧
    (factoryParseConfiguration (some someConfig)
      { coordinates := some "1.0;2.0", horizon_bit := some 3 }).1 = some someConfig :=
  c10_v1_negative_group_action { coordinates := some "1.0;2.0", horizon_bit := some 3 }
    (some someConfig) rfl (Or.inl (by decide)) (by decide)

/-- A surviving bit action is present in its location's contribution at
its fire time. -/
theorem bit_entry_mem_locContribs {now : Int} {groupActions : String → List GAction}
    {bits : String → List BAction} {results : String → Option RawTs} {loc : String} {et : Int}
    (hconv : convertTs (results (fieldMapGet loc)) = some et)
    {a : BAction} (ha : a ∈ bits loc) (hfire : now ≤ et + 60 * a.offset) :
    (⟨(loc, a.offset), .bit a.action a.bit_id⟩ : PlanEntry) ∈
      locContribs now groupActions bits results loc (et + 60 * a.offset) := by
  have hcond : ((groupActions loc).isEmpty && (bits loc).isEmpty) = false := by
    cases hb : bits loc with
    | nil => exact absurd (hb ▸ ha) (List.not_mem_nil a)
    | cons x xs => simp [hb]
  unfold locContribs
  simp only [hcond, Bool.false_eq_true, if_false, hconv]
  apply List.mem_append_left
  refine List.mem_map.mpr ⟨(et + 60 * a.offset, ⟨(loc, a.offset), .bit a.action a.bit_id⟩), ?_, rfl⟩
  refine List.mem_filter.mpr ⟨?_, by simp⟩
  refine List.mem_filterMap.mpr ⟨a, ha, ?_⟩
  simp [show ¬(et + 60 * a.offset < now) from not_lt.mpr hfire]

/-- A surviving group action is present in its location's contribution
at its fire time. -/
theorem group_entry_mem_locContribs {now : Int} {groupActions : String → List GAction}
    {bits : String → List BAction} {results : String → Option RawTs} {loc : String} {et : Int}
    (hconv : convertTs (results (fieldMapGet loc)) = some et)
    {a : GAction} (ha : a ∈ groupActions loc) (hfire : now ≤ et + 60 * a.offset) :
    (⟨(loc, a.offset), .group_action a.group_action_id⟩ : PlanEntry) ∈
      locContribs now groupActions bits results loc (et + 60 * a.offset) := by
  have hcond : ((groupActions loc).isEmpty && (bits loc).isEmpty) = false := by
    cases hg : groupActions loc with
    | nil => exact absurd (hg ▸ ha) (List.not_mem_nil a)
    | cons x xs => simp [hg]
  unfold locContribs
  simp only [hcond, Bool.false_eq_true, if_false, hconv]
  apply List.mem_append_right
  refine List.mem_map.mpr
    ⟨(et + 60 * a.offset, ⟨(loc, a.offset), .group_action a.group_action_id⟩), ?_, rfl⟩
  refine List.mem_filter.mpr ⟨?_, by simp⟩
  refine List.mem_filterMap.mpr ⟨a, ha, ?_⟩
  simp [show ¬(et + 60 * a.offset < now) from not_lt.mpr hfire]

/-- C4: the execution plan never contains a key before `now`; a location
whose converted event time is `None` (absent key, unparseable text or
the 1970 sentinel) contributes no entry at all; and every individual
action whose fire time is not before `now` is present at its fire
time — so exactly the already-passed actions are dropped, one by one. -/
theorem c4_plan_never_before_now (now : Int) (order : List String)
    (groupActions : String → List GAction) (bits : String → List BAction)
    (results : String → Option RawTs) :
    (∀ pr ∈ buildExecutionPlan now order groupActions bits results, now ≤ pr.1) ∧
    (∀ loc, convertTs (results (fieldMapGet loc)) = none →
      ∀ pr ∈ buildExecutionPlan now order groupActions bits results,
        ∀ e ∈ pr.2, e.source.1 ≠ loc) ∧
    (∀ loc ∈ order, ∀ et, convertTs (results (fieldMapGet loc)) = some et →
      (∀ a ∈ bits loc, now ≤ et + 60 * a.offset →
        (⟨(loc, a.offset), .bit a.action a.bit_id⟩ : PlanEntry) ∈
          lookupPlan (buildExecutionPlan now order groupActions bits results)
            (et + 60 * a.offset)) ∧
      (∀ a ∈ groupActions loc, now ≤ et + 60 * a.offset →
        (⟨(loc, a.offset), .group_action a.group_action_id⟩ : PlanEntry) ∈
          lookupPlan (buildExecutionPlan now order groupActions bits results)
            (et + 60 * a.offset))) := by
  refine ⟨?_, ?_, ?_⟩
  · intro pr hpr
    exact keys_buildExecutionPlan (List.mem_map_of_mem Prod.fst hpr)
  · intro loc hnone pr hpr e he hsrc
    have := memEntries_buildExecutionPlan ⟨pr, hpr, he⟩
    rw [hsrc, hnone] at this
    simp [convertTs] at this
  · intro loc hloc et hconv
    have hlk : ∀ t, lookupPlan (buildExecutionPlan now order groupActions bits results) t =
        concatMap (fun l => locContribs now groupActions bits results l t) order := by
      intro t
      have := lookupPlan_foldl now groupActions bits results order [] t
      simpa [buildExecutionPlan, lookupPlan] using this
    constructor
    · intro a ha hfire
      rw [hlk]
      exact mem_concatMap_of_mem hloc (bit_entry_mem_locContribs hconv ha hfire)
    · intro a ha hfire
      rw [hlk]
      exact mem_concatMap_of_mem hloc (group_entry_mem_locContribs hconv ha hfire)

/-- C4 witness: a single surviving bit action at sunrise is present in
the plan at its fire time. -/
theorem c4_plan_never_before_now_witness :
    (⟨("sunrise", 0), .bit "set" 7⟩ : PlanEntry) ∈
      lookupPlan (buildExecutionPlan 500 ["sunrise"] c4Group c4Bits c4Results) (1000 + 60 * 0) :=
  ((c4_plan_never_before_now 500 ["sunrise"] c4Group c4Bits c4Results).2.2 "sunrise"
      (List.mem_cons_self _ _) 1000 rfl).1 ⟨7, "set", 0⟩ (by simp [c4Bits]) (by decide)

/-- C5 counterexample: with iteration order sunrise then sunset, a
sunrise group action (offset 0, event 600) and a sunset bit action
(offset +10 minutes, event 0) share fire time 600, and the plan-entry
list at 600 holds the group action before the bit action. -/
theorem c5_counterexample_group_before_bit :
    lookupPlan (buildExecutionPlan 0 c5Order c5Group c5Bits c5Results) 600 =
      [⟨("sunrise", 0), .group_action 2⟩, ⟨("sunset", 10), .bit "set" 1⟩] := by
  decide

/-- C5 amended: the plan-entry list at any fire time is the
concatenation, over sun locations in iteration order, of each location's
surviving bit actions followed by its surviving group actions, each in
index order — bit actions precede group actions only among actions of
the same sun location. -/
theorem c5_amended_entry_order (now : Int) (order : List String)
    (groupActions : String → List GAction) (bits : String → List BAction)
    (results : String → Option RawTs) (t : Int) :
    lookupPlan (buildExecutionPlan now order groupActions bits results) t =
      concatMap (fun loc => locContribs now groupActions bits results loc t) order := by
  have := lookupPlan_foldl now groupActions bits results order [] t
  simpa [buildExecutionPlan, lookupPlan] using this

/-- C6: when five consecutive fetch attempts fail, `_build_execution_plan`
returns normally after exactly 5 attempts with an empty plan, sleeping 5
seconds after each failed attempt; `run` then schedules the next wake at
tomorrow plus a 5-second margin. -/
theorem c6_retry_exhaustion (now : Int) (order : List String)
    (groupActions : String → List GAction) (bits : String → List BAction)
    (attempts : Nat → FetchOutcome) (plan0 : ExecutionPlan) (nowEpoch tomorrowEpoch : Int)
    (hfail : ∀ k, k < 5 → attempts k = .failure) :
    buildExecutionPlanWithRetries now order groupActions bits attempts plan0 =
      ([], [5, 5, 5, 5, 5], 5) ∧
    runEmptyPlanWake nowEpoch tomorrowEpoch = tomorrowEpoch + 5 := by
  constructor
  · have h0 := hfail 0 (by omega)
    have h1 := hfail 1 (by omega)
    have h2 := hfail 2 (by omega)
    have h3 := hfail 3 (by omega)
    have h4 := hfail 4 (by omega)
    simp [buildExecutionPlanWithRetries, buildRetryLoop, h0, h1, h2, h3, h4]
  · unfold runEmptyPlanWake
    omega

/-- C6 witness: an always-failing source. -/
theorem c6_retry_exhaustion_witness :
    buildExecutionPlanWithRetries 0 [] (fun _ => []) (fun _ => []) (fun _ => .failure) [] =
      ([], [5, 5, 5, 5, 5], 5) ∧
    runEmptyPlanWake 0 86400 = 86400 + 5 :=
  c6_retry_exhaustion 0 [] (fun _ => []) (fun _ => []) (fun _ => .failure) [] 0 86400
    (fun _ _ => rfl)

/-- C8 counterexample: the code accepts `"1.5x;2.5"`, which has garbage
between the first number and the separator, while the claim's pattern
(number, separator, garbage, number) rejects it. -/
theorem c8_counterexample_garbage_before_separator :
    (coordinatesFromString "1.5x;2.5").isSome = true ∧
    claimCoordPattern "1.5x;2.5" = false := by
  exact ⟨by decide, by decide⟩

/-- C8 amended: the empty string parses to `(0.0, 0.0)`; any other
newline-free input parses successfully exactly when it decomposes as
number, optional garbage, separator (`;`, `,` or `/`), optional garbage,
number — garbage is allowed on both sides of the separator. -/
theorem c8_amended_coordinate_pattern (s : String) (hne : s ≠ "")
    (hnl : noNL s.toList = true) :
    ((coordinatesFromString s).isSome = true ↔
      ∃ n1 g1 c g2 n2, s.toList = n1 ++ g1 ++ c :: g2 ++ n2 ∧ numFull n1 = true ∧
        sepChar c = true ∧ numFull n2 = true) ∧
    coordinatesFromString "" = some ⟨0, 0⟩ := by
  refine ⟨?_, rfl⟩
  have hform : (coordinatesFromString s).isSome = (extractGroups s.toList).isSome := by
    unfold coordinatesFromString
    rw [if_neg hne]
    cases hx : extractGroups s.toList with
    | none => simp
    | some pr => cases pr; simp
  rw [hform, extractGroups_isSome_iff, coordPatternMatch_iff_exists]
  constructor
  · rintro ⟨n1, g1, c, g2, t, heq, hnum, _, hc, _, ht⟩
    have hnlt : noNL t = true :=
      noNL_of_subset hnl (fun x hx => by rw [heq]; simp [hx])
    exact ⟨n1, g1, c, g2, t, heq, hnum, hc, by rwa [tailNum_of_noNL hnlt] at ht⟩
  · rintro ⟨n1, g1, c, g2, n2, heq, hnum, hc, hnum2⟩
    have hg1 : noNL g1 = true := noNL_of_subset hnl (fun x hx => by rw [heq]; simp [hx])
    have hg2 : noNL g2 = true := noNL_of_subset hnl (fun x hx => by rw [heq]; simp [hx])
    have hn2 : noNL n2 = true := noNL_of_subset hnl (fun x hx => by rw [heq]; simp [hx])
    refine ⟨n1, g1, c, g2, n2, heq, hnum, hg1, hc, hg2, ?_⟩
    rw [tailNum_of_noNL hn2]
    exact hnum2

/-- C8 amended witness: the well-formed input `"1.0;2.0"`. -/
theorem c8_amended_coordinate_pattern_witness :
    ((coordinatesFromString "1.0;2.0").isSome = true ↔
      ∃ n1 g1 c g2 n2, "1.0;2.0".toList = n1 ++ g1 ++ c :: g2 ++ n2 ∧ numFull n1 = true ∧
        sepChar c = true ∧ numFull n2 = true) ∧
    coordinatesFromString "" = some ⟨0, 0⟩ :=
  c8_amended_coordinate_pattern "1.0;2.0" (by decide) (by decide)

/-- C9 counterexample: with a single plan entry 3 days in the future
(beyond 5 minutes, so not dispatched, and left in the plan), the next
wake anchor is tomorrow, not the nearest future entry: the
initialization `next_action_delta = timedelta(days=2)` excludes entries
2 or more days away. -/
theorem c9_counterexample_far_future_entry :
    dispatchScan 0 86400 [(259200, [c9Entry])] = ([(259200, [c9Entry])], [], 86400) ∧
    (86400 : Int) ≠ 259200 := by
  exact ⟨by decide, by decide⟩

/-- C9 amended: one wake of the dispatch scan removes and dispatches
exactly the entries within 5 minutes of `now` (in plan order); every
other entry stays; the next wake anchor is the earliest key more than 5
minutes in the future and strictly less than 2 days away, and
`tomorrow` when no such key exists — keys in the past or at least 2
days away are never the anchor. -/
theorem c9_amended_dispatch_window (now tomorrow : Int) (plan : ExecutionPlan) :
    (dispatchScan now tomorrow plan).1 =
      plan.filter (fun pr => decide (300 < (pr.1 - now).natAbs)) ∧
    (dispatchScan now tomorrow plan).2.1 =
      concatMap Prod.snd (plan.filter (fun pr => decide ((pr.1 - now).natAbs ≤ 300))) ∧
    (dispatchScan now tomorrow plan).2.2 =
      minOr
        ((plan.map Prod.fst).filter (fun d => decide (300 < d - now ∧ d - now < 172800)))
        tomorrow := by
  refine ⟨dispatchScanLoop_remaining now plan _, dispatchScanLoop_dispatched now plan _, ?_⟩
  have h1 : (dispatchScan now tomorrow plan).2.2 =
      (bestFold now (plan.map Prod.fst) (tomorrow, 172800)).1 := by
    simp [dispatchScan, dispatchScanLoop_best]
  rw [h1, bestFold_spec]
  congr 1
  apply List.filter_congr
  intro d _
  simp only [wakeCandidate]
  exact decide_eq_decide.mpr (by omega)

end Astro

